import Mathlib

/-!
Verification of the loterias.json synchronization core against its
natural-language specification.

The development shallowly embeds the Python sources:

* `src/services/base.py` — `BaseService.load_existing_data`,
  `BaseService.transform_draw`, `BaseService.run`, `BaseService.save_json`;
* `src/services/mega-sena-da-virada.py` — `MegaSenaDaViradaService._is_virada`
  and `MegaSenaDaViradaService.run`.

The remote HTTP endpoint is modelled as an oracle (`Remote`): `latest` is the
outcome of `fetch_json()` on the base URL (`none` models a raised exception),
and `byId i` is the outcome of `fetch_json(f"{base_url}/{i}")`.  A fetched
payload is a `Raw` record with optional fields, `none` modelling an absent
JSON key (subscripting an absent key raises `KeyError`).
-/

namespace Loterias

/-! ## JSON documents (for `load_existing_data` on arbitrary file content) -/

/-- A parsed JSON document, as produced by `json.load`. -/
inductive Json where
  | null : Json
  | bool (b : Bool) : Json
  | num (n : Int) : Json
  | str (s : String) : Json
  | arr (xs : List Json) : Json
  | obj (fields : List (String × Json)) : Json

/-- A hashable JSON value — the only values Python accepts as `dict` keys
among JSON shapes (`list` and `dict` raise `TypeError: unhashable type`). -/
inductive JKey where
  | null : JKey
  | bool (b : Bool) : JKey
  | num (n : Int) : JKey
  | str (s : String) : JKey
deriving DecidableEq

/-- The `dict`-key view of a JSON value: `none` for unhashable values. -/
def Json.toKey : Json → Option JKey
  | .null => some .null
  | .bool b => some (.bool b)
  | .num n => some (.num n)
  | .str s => some (.str s)
  | .arr _ => none
  | .obj _ => none

/-- Python `dict` subscript on a parsed JSON object: first binding wins. -/
def jsonLookup : List (String × Json) → String → Option Json
  | [], _ => none
  | (k, v) :: rest, key => if k = key then some v else jsonLookup rest key

/-- The state of the persisted store file as seen by `load_existing_data`:
absent, present but not valid JSON (`json.JSONDecodeError`), or a parsed
JSON document. -/
inductive FileState where
  | absent : FileState
  | invalidJson : FileState
  | json (j : Json) : FileState

/-- The one exception class `load_existing_data` can leak: its
`try` block catches only `json.JSONDecodeError` and `KeyError`, so a
`TypeError` (unhashable key, non-subscriptable element, non-iterable
document) propagates to the caller. -/
inductive LoadErr where
  | typeError : LoadErr
deriving DecidableEq

/-- Exceptions arising inside the dict comprehension
`{draw["concurso"]: draw for draw in data}`: a `KeyError` (caught by the
surrounding `try`) or a `TypeError` (not caught). -/
inductive CompErr where
  | keyErr : CompErr
  | typeErr : CompErr
deriving DecidableEq

/-- Insert into a Python `dict` modelled as an association list: an existing
key keeps its position and takes the new value, a fresh key is appended. -/
def kvInsert (m : List (JKey × Json)) (k : JKey) (v : Json) : List (JKey × Json) :=
  if m.any (fun p => p.1 == k) then
    m.map (fun p => if p.1 == k then (k, v) else p)
  else
    m ++ [(k, v)]

/-- The dict comprehension `{draw["concurso"]: draw for draw in data}`,
element by element.  A non-object element is not subscriptable by a string
(`TypeError`); a missing `"concurso"` key raises `KeyError`; an unhashable
key value raises `TypeError`. -/
def buildMapping : List Json → List (JKey × Json) → Except CompErr (List (JKey × Json))
  | [], acc => .ok acc
  | j :: rest, acc =>
    match j with
    | .obj fs =>
      match jsonLookup fs "concurso" with
      | none => .error .keyErr
      | some v =>
        match v.toKey with
        | none => .error .typeErr
        | some k => buildMapping rest (kvInsert acc k (.obj fs))
    | _ => .error .typeErr

/-- `BaseService.load_existing_data` (src/services/base.py, lines 102–125),
as a function of the store-file state.  Returns the mapping
`concurso ↦ draw`; `.error` models an exception escaping the method. -/
def load_existing_data : FileState → Except LoadErr (List (JKey × Json))
  | .absent => .ok []
  | .invalidJson => .ok []
  | .json j =>
    match j with
    | .obj fs =>
      match jsonLookup fs "concurso" with
      | none => .ok []
      | some v =>
        match v.toKey with
        | none => .error .typeError
        | some k => .ok [(k, .obj fs)]
    | .arr xs =>
      match buildMapping xs [] with
      | .ok m => .ok m
      | .error .keyErr => .ok []
      | .error .typeErr => .error .typeError
    | .str s => if s.isEmpty then .ok [] else .error .typeError
    | .num _ => .error .typeError
    | .bool _ => .error .typeError
    | .null => .error .typeError

/-! ## Draws, transforms and the remote oracle -/

/-- A raw API payload, restricted to the fields the base service and the
Virada service read.  `none` models an absent JSON field. -/
structure Raw where
  numero : Option Nat
  dataApuracao : Option String
  listaDezenas : Option (List String)
  indicadorConcursoEspecial : Option Int
deriving DecidableEq, Repr

/-- The canonical stored record produced by `BaseService.transform_draw`:
keys `concurso`, `data`, `resultado` in that order. -/
structure Draw where
  concurso : Nat
  data : String
  resultado : List String
deriving DecidableEq, Repr

/-- `BaseService.transform_draw` (src/services/base.py, lines 127–135):
reads `numero`, `dataApuracao`, `listaDezenas`; an absent field raises
`KeyError`, modelled as `.error`. -/
def transform_draw (raw : Raw) : Except Unit Draw :=
  match raw.numero with
  | none => .error ()
  | some n =>
    match raw.dataApuracao with
    | none => .error ()
    | some d =>
      match raw.listaDezenas with
      | none => .error ()
      | some dz => .ok ⟨n, d, dz⟩

/-- The remote endpoint as an oracle.  `latest` is the outcome of the
frontier query `fetch_json()`; `byId i` the outcome of
`fetch_json(f"{base_url}/{i}")`.  `none` models any raised exception
(network error, non-success status, unparsable body). -/
structure Remote where
  latest : Option Raw
  byId : Nat → Option Raw

/-- Fetch one numbered record and transform it: the body of the `try`
block in the backfill loop.  Fails when the fetch raises or the payload
lacks a required field. -/
def fetchTransform (byId : Nat → Option Raw) (i : Nat) : Except Unit Draw :=
  match byId i with
  | none => .error ()
  | some raw => transform_draw raw

/-- An honest remote: the record served for id `i` carries `numero = i`
(the numbered endpoint returns the draw it was asked for). -/
def honestRemote (byId : Nat → Option Raw) : Prop :=
  ∀ i raw, byId i = some raw → raw.numero = some i

/-! ## The in-memory working dict of `BaseService.run` -/

/-- `k in existing_draws` for the working `dict`, modelled as an
association list. -/
def hasKey (m : List (Nat × Draw)) (k : Nat) : Bool :=
  m.any (fun p => p.1 == k)

/-- `existing_draws[k] = v`: existing key keeps its position, fresh key is
appended (Python `dict` insertion order). -/
def dictInsert (m : List (Nat × Draw)) (k : Nat) (v : Draw) : List (Nat × Draw) :=
  if hasKey m k then
    m.map (fun p => if p.1 == k then (k, v) else p)
  else
    m ++ [(k, v)]

/-- The mutable state of the backfill loop: the working dict, the
`new_draws_count` counter, and the ids logged by warning messages. -/
structure BackfillState where
  draws : List (Nat × Draw)
  added : Nat
  failed : List Nat
deriving DecidableEq, Repr

/-- One iteration of the backfill loop of `BaseService.run`
(src/services/base.py, lines 157–170): skip a present id; otherwise fetch
and transform, inserting on success and logging a warning with the id on
any exception. -/
def backfillStep (byId : Nat → Option Raw) (s : BackfillState) (i : Nat) : BackfillState :=
  if hasKey s.draws i then s
  else
    match fetchTransform byId i with
    | .ok d => ⟨dictInsert s.draws i d, s.added + 1, s.failed⟩
    | .error _ => ⟨s.draws, s.added, s.failed ++ [i]⟩

/-- The backfill loop over a list of candidate ids. -/
def backfillIds (byId : Nat → Option Raw) : List Nat → BackfillState → BackfillState
  | [], s => s
  | i :: rest, s => backfillIds byId rest (backfillStep byId s i)

/-- `sorted(existing_draws.values(), key=lambda x: x["concurso"])`:
Python's `sorted` is a stable sort, modelled by stable insertion sort on
the `concurso` key. -/
def sortDraws (ds : List Draw) : List Draw :=
  ds.insertionSort (fun a b => a.concurso ≤ b.concurso)

/-- What `BaseService.run` reports: the "Found … existing draws" count,
the "Added … new draws" count, the "Total: …" count, and the ids named by
per-id warning log lines.  No aggregate failure count appears anywhere in
the code's output. -/
structure RunReport where
  existingBefore : Nat
  added : Nat
  total : Nat
  failedIds : List Nat
deriving DecidableEq, Repr

/-- `BaseService.run` (src/services/base.py, lines 138–182) as a function
of the remote oracle and the loaded working dict.  `.error` models an
exception escaping `run` (failed frontier query, `KeyError` on its
`numero`, or `KeyError` from transforming the frontier payload outside any
`try`).  On success, returns the sorted array handed to `save_json`
together with the reported counts. -/
def runBase (r : Remote) (existing : List (Nat × Draw)) :
    Except Unit (List Draw × RunReport) :=
  match r.latest with
  | none => .error ()
  | some lraw =>
    match lraw.numero with
    | none => .error ()
    | some latestConcurso =>
      match (if hasKey existing latestConcurso then Except.ok existing
             else
               match transform_draw lraw with
               | .ok d => Except.ok (dictInsert existing latestConcurso d)
               | .error e => Except.error e) with
      | .error e => .error e
      | .ok m0 =>
        match backfillIds r.byId (List.range' 1 latestConcurso) ⟨m0, 0, []⟩ with
        | ⟨m1, added, failed⟩ =>
          match sortDraws (m1.map Prod.snd) with
          | sorted => .ok (sorted, ⟨existing.length, added, sorted.length, failed⟩)

/-- Rendering of one stored draw, modelling the fixed key order
`concurso`, `data`, `resultado` that `json.dump` emits (`transform_draw`
builds the dict in that order and `json.dump` preserves it). -/
def serializeDraw (d : Draw) : String :=
  "\x7b \"concurso\": " ++ toString d.concurso ++ ", \"data\": \"" ++ d.data ++
    "\", \"resultado\": [" ++ String.intercalate ", " (d.resultado.map (fun s => "\"" ++ s ++ "\"")) ++ "] \x7d"

/-- `BaseService.save_json` (src/services/base.py, lines 78–100) as the
byte string written for a draw array: a deterministic function of the
array alone (`json.dump(..., ensure_ascii=False, indent=2)` is
deterministic), delimited as a JSON array. -/
def serializeDraws (ds : List Draw) : String :=
  "[\n" ++ String.intercalate ",\n" (ds.map serializeDraw) ++ "\n]"

/-- The store file after a run: `save_json` is only reached after the
frontier query, reconciliation and the whole backfill loop have completed,
so a failed run leaves the previous bytes in place. -/
def persistedAfter (r : Remote) (existing : List (Nat × Draw)) (file : Option String) :
    Option String :=
  match runBase r existing with
  | .error _ => file
  | .ok (ds, _) => some (serializeDraws ds)

/-- `load_existing_data` applied to a file that `save_json` just wrote for
`ds`: the dict comprehension keyed by each element's `"concurso"`. -/
def reloadDraws (ds : List Draw) : List (Nat × Draw) :=
  ds.foldl (fun m d => dictInsert m d.concurso d) []

/-! ## The Mega-Sena da Virada service -/

/-- Python `str.split(sep)` for a one-character separator, over the
character list of the string (`"31/12/2008".split("/") = ["31","12","2008"]`,
`"".split("/") = [""]`). -/
def charSplit (sep : Char) : List Char → List Char → List (List Char)
  | [], cur => [cur.reverse]
  | c :: rest, cur =>
    if c = sep then cur.reverse :: charSplit sep rest []
    else charSplit sep rest (c :: cur)

/-- Digit-string accumulator for `int(...)`. -/
def digitsToNat (acc : Nat) : List Char → Option Nat
  | [] => some acc
  | c :: rest => if c.isDigit then digitsToNat (acc * 10 + (c.toNat - 48)) rest else none

/-- Python `int(s)` on the strings that can reach the year check: a
non-empty digit string parses to its value, anything else raises
`ValueError` (modelled as `none`; the sign/whitespace forms `int` also
accepts never occur in a `DD/MM/YYYY` field and would not change the
verdict of the `>= 2008` comparison for these inputs). -/
def parseNat (cs : List Char) : Option Nat :=
  match cs with
  | [] => none
  | _ => digitsToNat 0 cs

/-- `MegaSenaDaViradaService._is_virada`
(src/services/mega-sena-da-virada.py, lines 26–48): the explicit
`indicadorConcursoEspecial == 2` indicator, with a `31/12`, year ≥ 2008
date fallback (`IndexError`/`ValueError` during year parsing fall through
to `False`). -/
def is_virada (raw : Raw) : Bool :=
  if raw.indicadorConcursoEspecial == some 2 then true
  else
    (fun cs =>
      if List.isPrefixOf "31/12".toList cs then
        match (charSplit '/' cs []).get? 2 with
        | some ystr =>
          match parseNat ystr with
          | some y => decide (2008 ≤ y)
          | none => false
        | none => false
      else false) (raw.dataApuracao.getD "").toList

/-- The filter applied by the Virada backfill loop to one fetched id:
`some d` when the fetch succeeded, the payload satisfies `_is_virada` and
the transform succeeded; `none` when the id is skipped (fetch or transform
raised — both inside the `try` — or the predicate is false). -/
def viradaPick (byId : Nat → Option Raw) (i : Nat) : Option Draw :=
  match byId i with
  | none => none
  | some raw =>
    if is_virada raw then (transform_draw raw).toOption else none

/-- The fetch loop of `MegaSenaDaViradaService.run`: accumulates the kept
draws and, separately, the trace of remote calls issued (one per loop
iteration, before any filtering). -/
def viradaLoop (byId : Nat → Option Raw) :
    List Nat → List Draw → List Nat → List Draw × List Nat
  | [], acc, calls => (acc, calls)
  | i :: rest, acc, calls =>
    match viradaPick byId i with
    | some d => viradaLoop byId rest (acc ++ [d]) (calls ++ [i])
    | none => viradaLoop byId rest acc (calls ++ [i])

/-- `MegaSenaDaViradaService.run` (src/services/mega-sena-da-virada.py,
lines 50–85) as a function of the remote oracle: fetches the latest
record, then fetches every id in `[1, latest)` afresh, keeps the records
satisfying `_is_virada`, sorts by `concurso` and saves.  The second
component of the result is the trace of by-id remote calls the run
issued. -/
def runVirada (r : Remote) : Except Unit (List Draw × List Nat) :=
  match r.latest with
  | none => .error ()
  | some lraw =>
    match lraw.numero with
    | none => .error ()
    | some latestConcurso =>
      match (if is_virada lraw then
               match transform_draw lraw with
               | .ok d => Except.ok [d]
               | .error e => Except.error e
             else Except.ok []) with
      | .error e => .error e
      | .ok acc0 =>
        match viradaLoop r.byId (List.range' 1 (latestConcurso - 1)) acc0 [] with
        | (ds, calls) => .ok (sortDraws ds, calls)

/-- Follows the spec's words for operating policy (b), §4.4: "treat the
local store as disposable and refetch every id up to frontier every run",
relying on the gateway cache for efficiency; the persisted result is the
sorted array of every successfully fetched-and-transformed id in
`[1, frontier]`. -/
def fullRebuildPolicy (r : Remote) : Except Unit (List Draw) :=
  match r.latest with
  | none => .error ()
  | some lraw =>
    match lraw.numero with
    | none => .error ()
    | some n =>
      .ok (sortDraws ((List.range' 1 n).filterMap
        (fun i => (fetchTransform r.byId i).toOption)))

/-! ## A caching session around the frontier query -/

/-- Modelled from the spec: the Cached Fetch Gateway (§4.1) is not part of
src/ (the session object is an external collaborator), so its non-bypassed
read path is modelled from the spec's words — "outside that mode, the call
may be served from a previously stored response if not expired, and
otherwise performs the real request and stores the result".  Only the
cache entry for the "latest" target is modelled. -/
def cachedFetchLatest (cache : Option Raw) (live : Option Raw) : Option Raw :=
  match cache with
  | some r => some r
  | none => live

/-- `BaseService.run` executed with a caching session: the code issues the
frontier query with a plain `self.fetch_json()` and never enters
`session.cache_disabled()` (the bypass the repository's own test
`tests/test_base_service.py` asserts), so the query is served by the
non-bypassed gateway path. -/
def runBaseCached (cache : Option Raw) (r : Remote) (existing : List (Nat × Draw)) :
    Except Unit (List Draw × RunReport) :=
  runBase ⟨cachedFetchLatest cache r.latest, r.byId⟩ existing

/-! ## What one pass of the backfill loop produces -/

/-- The records the backfill loop inserts, given the dict `m` it starts
from: one entry per candidate id that is absent from `m` and whose
fetch-and-transform succeeds. -/
def freshResults (byId : Nat → Option Raw) (m : List (Nat × Draw)) (ids : List Nat) :
    List (Nat × Draw) :=
  ids.filterMap (fun i =>
    if hasKey m i then none
    else
      match fetchTransform byId i with
      | .ok d => some (i, d)
      | .error _ => none)

/-- The ids the backfill loop logs warnings for, given the dict `m` it
starts from: the absent ids whose fetch-and-transform fails. -/
def freshFailures (byId : Nat → Option Raw) (m : List (Nat × Draw)) (ids : List Nat) :
    List Nat :=
  ids.filter (fun i => !hasKey m i && !(fetchTransform byId i).toOption.isSome)

theorem hasKey_iff {m : List (Nat × Draw)} {k : Nat} :
    hasKey m k = true ↔ ∃ v, (k, v) ∈ m := by
  simp only [hasKey, List.any_eq_true, beq_iff_eq]
  constructor
  · rintro ⟨⟨a, b⟩, hm, rfl⟩
    exact ⟨b, hm⟩
  · rintro ⟨v, hv⟩
    exact ⟨(k, v), hv, rfl⟩

theorem hasKey_append {m m' : List (Nat × Draw)} {k : Nat} :
    hasKey (m ++ m') k = (hasKey m k || hasKey m' k) := by
  simp [hasKey, List.any_append]

theorem hasKey_singleton {k i : Nat} {d : Draw} :
    hasKey [(i, d)] k = (i == k) := by
  simp [hasKey]

theorem dictInsert_of_not_hasKey {m : List (Nat × Draw)} {k : Nat} {v : Draw}
    (h : hasKey m k = false) : dictInsert m k v = m ++ [(k, v)] := by
  simp [dictInsert, h]

theorem freshResults_congr {byId : Nat → Option Raw} {m m' : List (Nat × Draw)}
    {ids : List Nat} (h : ∀ j ∈ ids, hasKey m' j = hasKey m j) :
    freshResults byId m' ids = freshResults byId m ids := by
  induction ids with
  | nil => rfl
  | cons i rest ih =>
    have hi := h i (by simp)
    have hrest : ∀ j ∈ rest, hasKey m' j = hasKey m j := fun j hj => h j (by simp [hj])
    simp only [freshResults, List.filterMap_cons] at *
    rw [hi, ih hrest]

theorem freshFailures_congr {byId : Nat → Option Raw} {m m' : List (Nat × Draw)}
    {ids : List Nat} (h : ∀ j ∈ ids, hasKey m' j = hasKey m j) :
    freshFailures byId m' ids = freshFailures byId m ids := by
  induction ids with
  | nil => rfl
  | cons i rest ih =>
    have hi := h i (by simp)
    have hrest : ∀ j ∈ rest, hasKey m' j = hasKey m j := fun j hj => h j (by simp [hj])
    simp only [freshFailures, List.filter_cons] at *
    rw [hi, ih hrest]

theorem backfillIds_eq (byId : Nat → Option Raw) (ids : List Nat) (hnd : ids.Nodup) :
    ∀ s : BackfillState,
      backfillIds byId ids s =
        ⟨s.draws ++ freshResults byId s.draws ids,
         s.added + (freshResults byId s.draws ids).length,
         s.failed ++ freshFailures byId s.draws ids⟩ := by
  induction ids with
  | nil => intro s; simp [backfillIds, freshResults, freshFailures]
  | cons i rest ih =>
    intro s
    have hi : i ∉ rest := (List.nodup_cons.mp hnd).1
    have hrest : rest.Nodup := (List.nodup_cons.mp hnd).2
    show backfillIds byId rest (backfillStep byId s i) = _
    cases hk : hasKey s.draws i with
    | true =>
      have hstep : backfillStep byId s i = s := by simp [backfillStep, hk]
      have hFR : freshResults byId s.draws (i :: rest) = freshResults byId s.draws rest := by
        simp [freshResults, List.filterMap_cons, hk]
      have hFF : freshFailures byId s.draws (i :: rest) = freshFailures byId s.draws rest := by
        simp [freshFailures, List.filter_cons, hk]
      rw [hstep, ih hrest, hFR, hFF]
    | false =>
      cases hft : fetchTransform byId i with
      | ok d =>
        have hstep : backfillStep byId s i =
            ⟨s.draws ++ [(i, d)], s.added + 1, s.failed⟩ := by
          simp [backfillStep, hk, hft, dictInsert_of_not_hasKey hk]
        have hcongr : ∀ j ∈ rest, hasKey (s.draws ++ [(i, d)]) j = hasKey s.draws j := by
          intro j hj
          have hij : (i == j) = false := by
            simp only [beq_eq_false_iff_ne]
            intro h; exact hi (h ▸ hj)
          simp [hasKey_append, hasKey_singleton, hij]
        have hFR : freshResults byId s.draws (i :: rest) =
            (i, d) :: freshResults byId s.draws rest := by
          simp [freshResults, List.filterMap_cons, hk, hft]
        have hFF : freshFailures byId s.draws (i :: rest) = freshFailures byId s.draws rest := by
          simp [freshFailures, List.filter_cons, hk, hft, Except.toOption]
        rw [hstep, ih hrest, freshResults_congr hcongr, freshFailures_congr hcongr, hFR, hFF]
        simp only [BackfillState.mk.injEq]
        refine ⟨by simp, by simp; omega, trivial⟩
      | error e =>
        have hstep : backfillStep byId s i = ⟨s.draws, s.added, s.failed ++ [i]⟩ := by
          simp [backfillStep, hk, hft]
        have hFR : freshResults byId s.draws (i :: rest) = freshResults byId s.draws rest := by
          simp [freshResults, List.filterMap_cons, hk, hft]
        have hFF : freshFailures byId s.draws (i :: rest) =
            i :: freshFailures byId s.draws rest := by
          simp [freshFailures, List.filter_cons, hk, hft, Except.toOption]
        rw [hstep, ih hrest, hFR, hFF]
        simp

theorem mem_freshResults {byId : Nat → Option Raw} {m : List (Nat × Draw)}
    {ids : List Nat} {i : Nat} {d : Draw} :
    (i, d) ∈ freshResults byId m ids ↔
      i ∈ ids ∧ hasKey m i = false ∧ fetchTransform byId i = .ok d := by
  simp only [freshResults, List.mem_filterMap]
  constructor
  · rintro ⟨j, hj, hf⟩
    cases hk : hasKey m j with
    | true => simp [hk] at hf
    | false =>
      cases hft : fetchTransform byId j with
      | ok d' =>
        simp only [hk, hft, if_false] at hf
        cases hf
        exact ⟨hj, hk, hft⟩
      | error e => simp [hk, hft] at hf
  · rintro ⟨hi, hk, hft⟩
    exact ⟨i, hi, by simp [hk, hft]⟩

theorem map_fst_freshResults (byId : Nat → Option Raw) (m : List (Nat × Draw))
    (ids : List Nat) :
    (freshResults byId m ids).map Prod.fst =
      ids.filter (fun i => !hasKey m i && (fetchTransform byId i).toOption.isSome) := by
  induction ids with
  | nil => rfl
  | cons i rest ih =>
    cases hk : hasKey m i with
    | true => simp [freshResults, List.filterMap_cons, List.filter_cons, hk] at *; exact ih
    | false =>
      cases hft : fetchTransform byId i with
      | ok d =>
        simp [freshResults, List.filterMap_cons, List.filter_cons, hk, hft,
          Except.toOption] at *
        exact ih
      | error e =>
        simp [freshResults, List.filterMap_cons, List.filter_cons, hk, hft,
          Except.toOption] at *
        exact ih

theorem mem_freshFailures {byId : Nat → Option Raw} {m : List (Nat × Draw)}
    {ids : List Nat} {i : Nat} :
    i ∈ freshFailures byId m ids ↔
      i ∈ ids ∧ hasKey m i = false ∧ (fetchTransform byId i).toOption = none := by
  simp only [freshFailures, List.mem_filter, Bool.and_eq_true, Bool.not_eq_true',
    Option.not_isSome, Option.isNone_iff_eq_none]

/-! ## Sorting facts -/

theorem sortDraws_perm (ds : List Draw) : (sortDraws ds).Perm ds :=
  List.perm_insertionSort _ ds

theorem mem_sortDraws {ds : List Draw} {d : Draw} : d ∈ sortDraws ds ↔ d ∈ ds :=
  (sortDraws_perm ds).mem_iff

theorem sortDraws_pairwise_le (ds : List Draw) :
    (sortDraws ds).Pairwise (fun a b => a.concurso ≤ b.concurso) := by
  haveI : IsTotal Draw (fun a b => a.concurso ≤ b.concurso) := ⟨fun a b => Nat.le_total _ _⟩
  haveI : IsTrans Draw (fun a b => a.concurso ≤ b.concurso) :=
    ⟨fun a b c hab hbc => Nat.le_trans hab hbc⟩
  exact List.sorted_insertionSort _ ds

theorem sortDraws_of_sorted {ds : List Draw}
    (h : ds.Pairwise (fun a b => a.concurso ≤ b.concurso)) : sortDraws ds = ds :=
  List.Sorted.insertionSort_eq h

theorem pairwise_lt_of_le_nodup {l : List Draw}
    (hle : l.Pairwise (fun a b => a.concurso ≤ b.concurso))
    (hnd : (l.map Draw.concurso).Nodup) :
    l.Pairwise (fun a b => a.concurso < b.concurso) := by
  have hne : l.Pairwise (fun a b => a.concurso ≠ b.concurso) := by
    simpa [List.Nodup, List.pairwise_map] using hnd
  exact (hle.and hne).imp (fun h => Nat.lt_of_le_of_ne h.1 h.2)

theorem eq_of_perm_of_pairwise_lt {l1 l2 : List Draw} (hp : l1.Perm l2)
    (h1 : l1.Pairwise (fun a b => a.concurso < b.concurso))
    (h2 : l2.Pairwise (fun a b => a.concurso < b.concurso)) : l1 = l2 := by
  haveI : IsAntisymm Draw (fun a b => a.concurso < b.concurso) :=
    ⟨fun a b hab hba => absurd (Nat.lt_trans hab hba) (Nat.lt_irrefl _)⟩
  exact List.eq_of_perm_of_sorted hp h1 h2

/-! ## Unfolding a whole run of `BaseService.run` -/

/-- The working dict right after reconciliation: the loaded dict, with the
frontier draw inserted when its id is absent. -/
def baseInit (existing : List (Nat × Draw)) (n : Nat) (ld : Draw) : List (Nat × Draw) :=
  if hasKey existing n then existing else existing ++ [(n, ld)]

/-- The working dict at the end of the backfill loop. -/
def baseFinal (r : Remote) (existing : List (Nat × Draw)) (n : Nat) (ld : Draw) :
    List (Nat × Draw) :=
  baseInit existing n ld ++
    freshResults r.byId (baseInit existing n ld) (List.range' 1 n)

theorem transform_concurso {raw : Raw} {d : Draw}
    (h : transform_draw raw = .ok d) : raw.numero = some d.concurso := by
  cases hn : raw.numero with
  | none => simp [transform_draw, hn] at h
  | some n =>
    cases hd : raw.dataApuracao with
    | none => simp [transform_draw, hn, hd] at h
    | some dt =>
      cases hz : raw.listaDezenas with
      | none => simp [transform_draw, hn, hd, hz] at h
      | some dz =>
        simp only [transform_draw, hn, hd, hz] at h
        cases h
        rfl

theorem runBase_eq (r : Remote) (existing : List (Nat × Draw)) (lraw : Raw)
    (n : Nat) (ld : Draw) (h2 : r.latest = some lraw) (h3 : lraw.numero = some n)
    (hcase : hasKey existing n = true ∨ transform_draw lraw = .ok ld) :
    runBase r existing =
      .ok (sortDraws ((baseFinal r existing n ld).map Prod.snd),
        ⟨existing.length,
         (freshResults r.byId (baseInit existing n ld) (List.range' 1 n)).length,
         (sortDraws ((baseFinal r existing n ld).map Prod.snd)).length,
         freshFailures r.byId (baseInit existing n ld) (List.range' 1 n)⟩) := by
  have hbf := backfillIds_eq r.byId (List.range' 1 n) (List.nodup_range' 1 n)
  rcases hcase with hk | h4
  · simp only [runBase, h2, h3, hk, if_true, baseFinal, baseInit,
      hbf ⟨existing, 0, []⟩, Nat.zero_add, List.nil_append]
  · cases hk : hasKey existing n with
    | true =>
      simp only [runBase, h2, h3, hk, if_true, baseFinal, baseInit,
        hbf ⟨existing, 0, []⟩, Nat.zero_add, List.nil_append]
    | false =>
      simp [runBase, h2, h3, hk, h4, dictInsert_of_not_hasKey hk, baseFinal,
        baseInit, hbf ⟨existing ++ [(n, ld)], 0, []⟩]

theorem runBase_ok_elim {r : Remote} {existing : List (Nat × Draw)}
    {out : List Draw × RunReport} (hok : runBase r existing = .ok out) :
    ∃ lraw n ld, r.latest = some lraw ∧ lraw.numero = some n ∧
      (hasKey existing n = true ∨ transform_draw lraw = .ok ld) := by
  cases hl : r.latest with
  | none => simp [runBase, hl] at hok
  | some lraw =>
    cases hn : lraw.numero with
    | none => simp [runBase, hl, hn] at hok
    | some n =>
      cases hk : hasKey existing n with
      | true => exact ⟨lraw, n, ⟨0, "", []⟩, rfl, hn, Or.inl hk⟩
      | false =>
        cases ht : transform_draw lraw with
        | ok ld => exact ⟨lraw, n, ld, rfl, hn, Or.inr ht⟩
        | error e => simp [runBase, hl, hn, hk, ht] at hok

/-! ## Key discipline of the working dict -/

/-- Every binding of the working dict keys a draw by its own `concurso` —
true of everything `load_existing_data` or a previous save produces,
since the load comprehension keys each element by its `"concurso"`
field. -/
def keyed (m : List (Nat × Draw)) : Prop :=
  ∀ p ∈ m, (Prod.snd p).concurso = Prod.fst p

theorem mem_map_fst {m : List (Nat × Draw)} {k : Nat} :
    k ∈ m.map Prod.fst ↔ ∃ v, (k, v) ∈ m := by
  constructor
  · intro h
    rcases List.mem_map.mp h with ⟨⟨a, b⟩, hm, rfl⟩
    exact ⟨b, hm⟩
  · rintro ⟨v, hv⟩
    exact List.mem_map_of_mem Prod.fst hv

theorem hasKey_eq_false_iff {m : List (Nat × Draw)} {k : Nat} :
    hasKey m k = false ↔ k ∉ m.map Prod.fst := by
  rw [mem_map_fst, ← hasKey_iff]
  cases hasKey m k <;> simp

theorem fetchTransform_concurso {byId : Nat → Option Raw} {i : Nat} {d : Draw}
    (hhon : honestRemote byId) (h : fetchTransform byId i = .ok d) :
    d.concurso = i := by
  cases hb : byId i with
  | none => simp [fetchTransform, hb] at h
  | some raw =>
    rw [fetchTransform, hb] at h
    have h1 := transform_concurso h
    have h2 := hhon i raw hb
    rw [h1] at h2
    exact Option.some_injective _ h2

theorem baseInit_keyed {L : List (Nat × Draw)} {n : Nat} {ld : Draw}
    (hkeyed : keyed L) (hld : hasKey L n = true ∨ ld.concurso = n) :
    keyed (baseInit L n ld) := by
  unfold baseInit
  cases hk : hasKey L n with
  | true => simpa using hkeyed
  | false =>
    have hc : ld.concurso = n := by
      rcases hld with h | h
      · rw [hk] at h; cases h
      · exact h
    intro p hp
    rcases List.mem_append.mp hp with h | h
    · exact hkeyed p h
    · simp only [List.mem_singleton] at h
      subst h
      exact hc

theorem baseFinal_keyed {r : Remote} {L : List (Nat × Draw)} {n : Nat} {ld : Draw}
    (hhon : honestRemote r.byId) (hkeyed : keyed L)
    (hld : hasKey L n = true ∨ ld.concurso = n) :
    keyed (baseFinal r L n ld) := by
  intro p hp
  rcases List.mem_append.mp hp with h | h
  · exact baseInit_keyed hkeyed hld p h
  · obtain ⟨hi, hk, hft⟩ := mem_freshResults.mp (by exact h)
    exact fetchTransform_concurso hhon hft

theorem baseInit_keys_nodup {L : List (Nat × Draw)} {n : Nat} {ld : Draw}
    (hnd : (L.map Prod.fst).Nodup) : ((baseInit L n ld).map Prod.fst).Nodup := by
  unfold baseInit
  cases hk : hasKey L n with
  | true => simpa using hnd
  | false =>
    show ((L ++ [(n, ld)]).map Prod.fst).Nodup
    rw [List.map_append, List.nodup_append]
    refine ⟨hnd, by simp, ?_⟩
    intro a ha hb
    simp only [List.map_cons, List.map_nil, List.mem_singleton] at hb
    subst hb
    exact (hasKey_eq_false_iff.mp hk) ha

theorem freshResults_keys_nodup {byId : Nat → Option Raw} {m : List (Nat × Draw)}
    {ids : List Nat} (hnd : ids.Nodup) :
    ((freshResults byId m ids).map Prod.fst).Nodup := by
  rw [map_fst_freshResults]
  exact hnd.filter _

theorem baseFinal_keys_nodup {r : Remote} {L : List (Nat × Draw)} {n : Nat} {ld : Draw}
    (hnd : (L.map Prod.fst).Nodup) : ((baseFinal r L n ld).map Prod.fst).Nodup := by
  unfold baseFinal
  rw [List.map_append, List.nodup_append]
  refine ⟨baseInit_keys_nodup hnd, freshResults_keys_nodup (List.nodup_range' 1 n), ?_⟩
  intro a ha hb
  rcases mem_map_fst.mp hb with ⟨v, hv⟩
  obtain ⟨_, hk, _⟩ := mem_freshResults.mp hv
  exact (hasKey_eq_false_iff.mp hk) ha

theorem map_concurso_values {m : List (Nat × Draw)} (h : keyed m) :
    (m.map Prod.snd).map Draw.concurso = m.map Prod.fst := by
  rw [List.map_map]
  exact List.map_congr_left h

/-- The central sortedness fact: a successful run of `BaseService.run`
against an honest remote, starting from a properly keyed dict, hands
`save_json` a strictly ascending, duplicate-free array. -/
theorem runBase_ok_pairwise {r : Remote} {L : List (Nat × Draw)}
    {ds : List Draw} {rep : RunReport} (hhon : honestRemote r.byId)
    (hkeyed : keyed L) (hnd : (L.map Prod.fst).Nodup)
    (hok : runBase r L = .ok (ds, rep)) :
    ds.Pairwise (fun a b => a.concurso < b.concurso) := by
  obtain ⟨lraw, n, ld, h2, h3, hcase⟩ := runBase_ok_elim hok
  rw [runBase_eq r L lraw n ld h2 h3 hcase] at hok
  have hds : ds = sortDraws ((baseFinal r L n ld).map Prod.snd) := by
    cases hok
    rfl
  subst hds
  have hld : hasKey L n = true ∨ ld.concurso = n := by
    rcases hcase with h | h
    · exact Or.inl h
    · refine Or.inr ?_
      have := transform_concurso h
      rw [h3] at this
      exact (Option.some_injective _ this).symm
  have hkeyedF : keyed (baseFinal r L n ld) := baseFinal_keyed hhon hkeyed hld
  have hndF : ((baseFinal r L n ld).map Prod.fst).Nodup := baseFinal_keys_nodup hnd
  have hvals : (((baseFinal r L n ld).map Prod.snd).map Draw.concurso).Nodup := by
    rw [map_concurso_values hkeyedF]; exact hndF
  have hsorted := sortDraws_pairwise_le ((baseFinal r L n ld).map Prod.snd)
  have hperm := sortDraws_perm ((baseFinal r L n ld).map Prod.snd)
  exact pairwise_lt_of_le_nodup hsorted (((hperm.map Draw.concurso).nodup_iff).mpr hvals)

/-! ## Reloading a saved array -/

theorem foldl_dictInsert_fresh :
    ∀ (ds : List Draw) (acc : List (Nat × Draw)), (ds.map Draw.concurso).Nodup →
      (∀ d ∈ ds, hasKey acc d.concurso = false) →
      ds.foldl (fun m d => dictInsert m d.concurso d) acc =
        acc ++ ds.map (fun d => (d.concurso, d)) := by
  intro ds
  induction ds with
  | nil => intro acc _ _; simp
  | cons d rest ih =>
    intro acc hnd hfresh
    have hd : hasKey acc d.concurso = false := hfresh d (by simp)
    have hnd' : (rest.map Draw.concurso).Nodup := (List.nodup_cons.mp (by simpa using hnd)).2
    have hdrest : d.concurso ∉ rest.map Draw.concurso :=
      (List.nodup_cons.mp (by simpa using hnd)).1
    have hfresh' : ∀ e ∈ rest, hasKey (acc ++ [(d.concurso, d)]) e.concurso = false := by
      intro e he
      rw [hasKey_append, hfresh e (by simp [he]), hasKey_singleton]
      simp only [Bool.false_or, beq_eq_false_iff_ne]
      intro hc
      exact hdrest (hc ▸ List.mem_map_of_mem Draw.concurso he)
    show List.foldl _ (dictInsert acc d.concurso d) rest = _
    rw [dictInsert_of_not_hasKey hd, ih (acc ++ [(d.concurso, d)]) hnd' hfresh']
    simp

theorem reloadDraws_eq {ds : List Draw} (hnd : (ds.map Draw.concurso).Nodup) :
    reloadDraws ds = ds.map (fun d => (d.concurso, d)) := by
  have := foldl_dictInsert_fresh ds [] hnd (by intro d _; rfl)
  simpa [reloadDraws] using this

theorem hasKey_map_self {ds : List Draw} {k : Nat} :
    hasKey (ds.map (fun d => (d.concurso, d))) k = true ↔ k ∈ ds.map Draw.concurso := by
  rw [hasKey_iff]
  constructor
  · rintro ⟨v, hv⟩
    rcases List.mem_map.mp hv with ⟨d, hd, hdv⟩
    cases hdv
    exact List.mem_map_of_mem Draw.concurso hd
  · intro hk
    rcases List.mem_map.mp hk with ⟨d, hd, hdk⟩
    exact ⟨d, hdk ▸ List.mem_map_of_mem _ hd⟩

theorem hasKey_baseInit {L : List (Nat × Draw)} {n j : Nat} {ld : Draw} :
    hasKey (baseInit L n ld) j = true ↔ (hasKey L j = true ∨ j = n) := by
  unfold baseInit
  cases hk : hasKey L n with
  | true =>
    simp only [if_true]
    constructor
    · exact Or.inl
    · rintro (h | rfl)
      · exact h
      · exact hk
  | false =>
    show hasKey (L ++ [(n, ld)]) j = true ↔ _
    rw [hasKey_append, hasKey_singleton]
    cases hkj : hasKey L j with
    | true => simp
    | false =>
      simp only [Bool.false_or, beq_iff_eq, Bool.false_eq_true, false_or]
      exact eq_comm

theorem mem_baseInit {L : List (Nat × Draw)} {n : Nat} {ld : Draw} {p : Nat × Draw}
    (hp : p ∈ baseInit L n ld) : p ∈ L ∨ p = (n, ld) := by
  unfold baseInit at hp
  cases hk : hasKey L n with
  | true => exact Or.inl (by simpa [hk] using hp)
  | false =>
    have hp2 : p ∈ L ++ [(n, ld)] := by simpa [hk] using hp
    rcases List.mem_append.mp hp2 with h | h
    · exact Or.inl h
    · exact Or.inr (List.mem_singleton.mp h)

theorem toOption_ok {e α : Type} {a : α} : (Except.ok a : Except e α).toOption = some a := rfl

theorem toOption_error {e α : Type} {b : e} : (Except.error b : Except e α).toOption = none := rfl

theorem hasKey_baseFinal_of_init {r : Remote} {L : List (Nat × Draw)} {n j : Nat}
    {ld : Draw} (h : hasKey (baseInit L n ld) j = true) :
    hasKey (baseFinal r L n ld) j = true := by
  unfold baseFinal
  rw [hasKey_append, h]
  rfl

theorem hasKey_baseFinal_of_fetch {r : Remote} {L : List (Nat × Draw)} {n j : Nat}
    {ld : Draw} {d : Draw} (hj : j ∈ List.range' 1 n)
    (hd : fetchTransform r.byId j = .ok d) :
    hasKey (baseFinal r L n ld) j = true := by
  cases hk : hasKey (baseInit L n ld) j with
  | true => exact hasKey_baseFinal_of_init hk
  | false =>
    unfold baseFinal
    rw [hasKey_append]
    have hfr : hasKey (freshResults r.byId (baseInit L n ld) (List.range' 1 n)) j = true :=
      hasKey_iff.mpr ⟨d, mem_freshResults.mpr ⟨hj, hk, hd⟩⟩
    rw [hfr, Bool.or_true]

theorem mem_map_snd {m : List (Nat × Draw)} {d : Draw} :
    d ∈ m.map Prod.snd ↔ ∃ k, (k, d) ∈ m := by
  constructor
  · intro h
    rcases List.mem_map.mp h with ⟨⟨a, b⟩, hm, rfl⟩
    exact ⟨a, hm⟩
  · rintro ⟨k, hk⟩
    exact List.mem_map_of_mem Prod.snd hk

theorem nodup_of_pairwise_lt {l : List Draw}
    (h : l.Pairwise (fun a b => a.concurso < b.concurso)) : l.Nodup :=
  h.imp (fun hlt heq => absurd (heq ▸ hlt) (Nat.lt_irrefl _))

theorem nodup_concursos_of_pairwise_lt {l : List Draw}
    (h : l.Pairwise (fun a b => a.concurso < b.concurso)) :
    (l.map Draw.concurso).Nodup := by
  rw [List.Nodup, List.pairwise_map]
  exact h.imp (fun hlt => Nat.ne_of_lt hlt)

theorem fetchList_concursos {byId : Nat → Option Raw} (hhon : honestRemote byId) :
    ∀ ids : List Nat,
      ((ids.filterMap (fun i => (fetchTransform byId i).toOption)).map Draw.concurso) =
        ids.filter (fun i => (fetchTransform byId i).toOption.isSome) := by
  intro ids
  induction ids with
  | nil => rfl
  | cons i rest ih =>
    cases hft : fetchTransform byId i with
    | ok d =>
      have hc : d.concurso = i := fetchTransform_concurso hhon hft
      simp [List.filterMap_cons, List.filter_cons, hft, toOption_ok, hc, ih]
    | error e =>
      simp [List.filterMap_cons, List.filter_cons, hft, toOption_error, ih]

/-! ## Unfolding a whole run of `MegaSenaDaViradaService.run` -/

theorem viradaPick_concurso {byId : Nat → Option Raw} {i : Nat} {d : Draw}
    (hhon : honestRemote byId) (h : viradaPick byId i = some d) : d.concurso = i := by
  cases hb : byId i with
  | none => simp [viradaPick, hb] at h
  | some raw =>
    simp only [viradaPick, hb] at h
    by_cases hv : is_virada raw = true
    · rw [if_pos hv] at h
      cases hft : transform_draw raw with
      | ok d2 =>
        rw [hft, toOption_ok] at h
        cases h
        exact fetchTransform_concurso hhon (by rw [fetchTransform, hb]; exact hft)
      | error e =>
        rw [hft, toOption_error] at h
        simp at h
    · rw [if_neg hv] at h
      simp at h

theorem viradaLoop_eq (byId : Nat → Option Raw) :
    ∀ (ids : List Nat) (acc : List Draw) (calls : List Nat),
      viradaLoop byId ids acc calls =
        (acc ++ ids.filterMap (viradaPick byId), calls ++ ids) := by
  intro ids
  induction ids with
  | nil => intro acc calls; simp [viradaLoop]
  | cons i rest ih =>
    intro acc calls
    cases hp : viradaPick byId i with
    | some d =>
      have hstep : viradaLoop byId (i :: rest) acc calls =
          viradaLoop byId rest (acc ++ [d]) (calls ++ [i]) := by
        simp [viradaLoop, hp]
      rw [hstep, ih]
      simp [List.filterMap_cons, hp]
    | none =>
      have hstep : viradaLoop byId (i :: rest) acc calls =
          viradaLoop byId rest acc (calls ++ [i]) := by
        simp [viradaLoop, hp]
      rw [hstep, ih]
      simp [List.filterMap_cons, hp]

theorem viradaPick_concursos {byId : Nat → Option Raw} (hhon : honestRemote byId) :
    ∀ ids : List Nat,
      ((ids.filterMap (viradaPick byId)).map Draw.concurso) =
        ids.filter (fun i => (viradaPick byId i).isSome) := by
  intro ids
  induction ids with
  | nil => rfl
  | cons i rest ih =>
    cases hp : viradaPick byId i with
    | some d =>
      have hc : d.concurso = i := viradaPick_concurso hhon hp
      simp [List.filterMap_cons, List.filter_cons, hp, hc, ih]
    | none =>
      simp [List.filterMap_cons, List.filter_cons, hp, ih]

/-! ## Safe file contents for `load_existing_data` -/

/-- The file contents on which `load_existing_data` is exception-free: an
absent file, invalid JSON, a JSON object (legacy format), an array all of
whose elements are objects with hashable `"concurso"` values where
present, or the degenerate empty-string document. -/
def loadSafe : FileState → Prop
  | .absent => True
  | .invalidJson => True
  | .json j =>
    match j with
    | .obj fs => ∀ v, jsonLookup fs "concurso" = some v → (Json.toKey v).isSome = true
    | .arr xs => ∀ x ∈ xs, ∃ fs, x = Json.obj fs ∧
        ∀ v, jsonLookup fs "concurso" = some v → (Json.toKey v).isSome = true
    | .str s => s = ""
    | _ => False

theorem buildMapping_safe :
    ∀ (xs : List Json) (acc : List (JKey × Json)),
      (∀ x ∈ xs, ∃ fs, x = Json.obj fs ∧
        ∀ v, jsonLookup fs "concurso" = some v → (Json.toKey v).isSome = true) →
      (∃ m, buildMapping xs acc = .ok m) ∨ buildMapping xs acc = .error .keyErr := by
  intro xs
  induction xs with
  | nil => intro acc _; exact Or.inl ⟨acc, rfl⟩
  | cons x rest ih =>
    intro acc hsafe
    obtain ⟨fs, rfl, hkeys⟩ := hsafe x (by simp)
    cases hv : jsonLookup fs "concurso" with
    | none =>
      right
      simp [buildMapping, hv]
    | some v =>
      have hk := hkeys v hv
      cases hkk : Json.toKey v with
      | none =>
        rw [hkk] at hk
        simp at hk
      | some k =>
        have hstep : buildMapping (Json.obj fs :: rest) acc =
            buildMapping rest (kvInsert acc k (Json.obj fs)) := by
          simp [buildMapping, hv, hkk]
        rw [hstep]
        exact ih (kvInsert acc k (Json.obj fs)) (fun y hy => hsafe y (by simp [hy]))

/-! ## Concrete scenarios used by witnesses and counterexamples -/

/-- A well-formed remote payload for draw `n`. -/
def sampleRaw (n : Nat) : Raw := ⟨some n, some "01/01/2020", some ["01"], none⟩

/-- The transform of `sampleRaw n`. -/
def sampleDraw (n : Nat) : Draw := ⟨n, "01/01/2020", ["01"]⟩

/-- The spec's concrete scenario: remote frontier 5, ids 1 and 3 serve
malformed payloads (no required fields), ids 2, 4, 5 succeed. -/
def scenarioRemote : Remote :=
  ⟨some (sampleRaw 5), fun i =>
    if i = 1 ∨ i = 3 then some ⟨none, none, none, none⟩
    else if i ≤ 5 then some (sampleRaw i) else none⟩

/-- A remote with frontier 3 where id 2 fails to fetch. -/
def gapRemote : Remote :=
  ⟨some (sampleRaw 3), fun i =>
    if i = 2 then none else if i ≤ 3 then some (sampleRaw i) else none⟩

/-- A fully healthy remote with frontier 3. -/
def denseRemote : Remote :=
  ⟨some (sampleRaw 3), fun i => if i ≤ 3 then some (sampleRaw i) else none⟩

/-- A remote whose frontier has advanced to 2 (all ids healthy). -/
def advancedRemote : Remote :=
  ⟨some (sampleRaw 2), fun i => if i ≤ 2 then some (sampleRaw i) else none⟩

theorem denseRemote_honest : honestRemote denseRemote.byId := by
  intro i raw h
  by_cases hi : i ≤ 3
  · simp only [denseRemote, hi, if_true] at h
    rw [← Option.some_injective _ h]
    rfl
  · simp [denseRemote, hi] at h

/-! ## Claims -/

/-- C1: during the backfill loop, every missing id in scope whose fetch or
transform fails (for any exception) is logged by a warning naming the id
and skipped; the run still completes (`.ok`), and every id fetched and
transformed successfully ends up in the persisted array — a per-id
failure never aborts the run. -/
theorem backfill_per_id_failure_skipped (r : Remote) (L : List (Nat × Draw))
    (lraw : Raw) (n : Nat) (ld : Draw) (h2 : r.latest = some lraw)
    (h3 : lraw.numero = some n) (h4 : transform_draw lraw = .ok ld) :
    ∃ ds rep, runBase r L = .ok (ds, rep) ∧
      ∀ i, i ∈ List.range' 1 n → hasKey L i = false → i ≠ n →
        ((fetchTransform r.byId i).toOption = none → i ∈ rep.failedIds) ∧
        ∀ d, fetchTransform r.byId i = .ok d → d ∈ ds := by
  refine ⟨_, _, runBase_eq r L lraw n ld h2 h3 (Or.inr h4), ?_⟩
  intro i hi hkL hin
  have hk0 : hasKey (baseInit L n ld) i = false := by
    cases hv : hasKey (baseInit L n ld) i with
    | false => rfl
    | true =>
      rcases hasKey_baseInit.mp hv with h | h
      · rw [hkL] at h; cases h
      · exact absurd h hin
  constructor
  · intro hfail
    exact mem_freshFailures.mpr ⟨hi, hk0, hfail⟩
  · intro d hok
    rw [mem_sortDraws]
    exact mem_map_snd.mpr
      ⟨i, List.mem_append.mpr (Or.inr (mem_freshResults.mpr ⟨hi, hk0, hok⟩))⟩

theorem backfill_per_id_failure_skipped_witness :
    ∃ ds rep, runBase gapRemote [] = .ok (ds, rep) ∧
      ∀ i, i ∈ List.range' 1 3 → hasKey [] i = false → i ≠ 3 →
        ((fetchTransform gapRemote.byId i).toOption = none → i ∈ rep.failedIds) ∧
        ∀ d, fetchTransform gapRemote.byId i = .ok d → d ∈ ds :=
  backfill_per_id_failure_skipped gapRemote [] (sampleRaw 3) 3 (sampleDraw 3) rfl rfl rfl

/-- C2: when the frontier-discovery fetch fails, the whole run aborts with
the exception propagating to the caller, and the persisted store file is
left unchanged — `save_json` is only reached after reconciliation and the
whole backfill loop complete. -/
theorem frontier_failure_aborts_run (r : Remote) (L : List (Nat × Draw))
    (file : Option String) (h : r.latest = none) :
    runBase r L = .error () ∧ persistedAfter r L file = file := by
  have h1 : runBase r L = .error () := by simp [runBase, h]
  exact ⟨h1, by simp [persistedAfter, h1]⟩

theorem frontier_failure_aborts_run_witness :
    runBase ⟨none, fun _ => none⟩ [(1, sampleDraw 1)] = .error () ∧
      persistedAfter ⟨none, fun _ => none⟩ [(1, sampleDraw 1)] (some "old bytes") =
        some "old bytes" :=
  frontier_failure_aborts_run ⟨none, fun _ => none⟩ [(1, sampleDraw 1)] (some "old bytes") rfl

/-- C3: after every successful run against an honest remote, starting
from a properly keyed, duplicate-free loaded dict, the persisted array is
strictly ascending by draw id — adjacent ids satisfy `id[i] < id[i+1]`,
so no id occurs twice. -/
theorem persisted_array_strictly_ascending (r : Remote) (L : List (Nat × Draw))
    (ds : List Draw) (rep : RunReport) (hhon : honestRemote r.byId)
    (hkeyed : keyed L) (hnd : (L.map Prod.fst).Nodup)
    (hok : runBase r L = .ok (ds, rep)) :
    ds.Pairwise (fun a b => a.concurso < b.concurso) :=
  runBase_ok_pairwise hhon hkeyed hnd hok

theorem persisted_array_strictly_ascending_witness :
    ([sampleDraw 1, sampleDraw 2, sampleDraw 3] : List Draw).Pairwise
      (fun a b => a.concurso < b.concurso) :=
  persisted_array_strictly_ascending denseRemote []
    [sampleDraw 1, sampleDraw 2, sampleDraw 3] ⟨0, 2, 3, []⟩ denseRemote_honest
    (fun p hp => absurd hp (List.not_mem_nil p)) (by simp) rfl

/-- C5 (code bug): `BaseService.run` issues the frontier query without
entering `session.cache_disabled()`, although the repository's own test
(`tests/test_base_service.py::test_run_fetches_latest_with_cache_bypassed`)
asserts that scope around the latest fetch.  With a caching session whose
cache holds a stale latest response (frontier 1), a run against a remote
that has advanced to frontier 2 persists a collection without id 2 —
the frontier is read from the stale cache; bypassing the cache (second
conjunct) would have picked id 2 up. -/
theorem stale_cached_frontier_misses_new_draw :
    runBaseCached (some (sampleRaw 1)) advancedRemote (reloadDraws [sampleDraw 1]) =
      .ok ([sampleDraw 1], ⟨1, 0, 1, []⟩) ∧
    runBaseCached none advancedRemote (reloadDraws [sampleDraw 1]) =
      .ok ([sampleDraw 1, sampleDraw 2], ⟨1, 0, 2, []⟩) :=
  ⟨rfl, rfl⟩

/-- C6 counterexample: in the spec's concrete scenario (frontier 5, empty
store, ids 1 and 3 malformed), the run report's `added` count is 2, not 3
as the claim states — the frontier draw inserted during reconciliation is
not counted by `new_draws_count`. -/
theorem scenario_added_is_two_not_three :
    runBase scenarioRemote [] =
      .ok ([sampleDraw 2, sampleDraw 4, sampleDraw 5], ⟨0, 2, 3, [1, 3]⟩) ∧
    (RunReport.added ⟨0, 2, 3, [1, 3]⟩ ≠ 3) :=
  ⟨rfl, by decide⟩

/-- C6 amended: in the scenario the persisted array has exactly the three
elements with ids 2, 4, 5 in that order; the run reports
existing-before = 0, added = 2 (the frontier draw is inserted during
reconciliation without being counted) and total = 3; no aggregate failed
count is reported — the two failures surface only as per-id warnings
naming ids 1 and 3. -/
theorem scenario_persists_two_four_five :
    runBase scenarioRemote [] =
      .ok ([sampleDraw 2, sampleDraw 4, sampleDraw 5], ⟨0, 2, 3, [1, 3]⟩) := rfl

/-- C9 counterexample: the store file `[1]` (valid JSON, an array whose
element is a number) makes `load_existing_data` raise `TypeError` — the
method's `try` catches only `json.JSONDecodeError` and `KeyError`, so it
does not return an empty mapping for every possible file content. -/
theorem load_raises_on_array_of_numbers :
    load_existing_data (.json (.arr [.num 1])) = .error .typeError := rfl

/-- C9 amended: `load_existing_data` never raises — returning a mapping,
empty on absence or malformed content — for absent files, invalid JSON,
object documents, and arrays whose elements are all objects (with
hashable `"concurso"` values where present); but content outside this
class (e.g. an array containing a non-object) raises an uncaught
`TypeError`. -/
theorem load_total_on_safe_contents (f : FileState) (h : loadSafe f) :
    ∃ m, load_existing_data f = .ok m := by
  cases f with
  | absent => exact ⟨[], rfl⟩
  | invalidJson => exact ⟨[], rfl⟩
  | json j =>
    cases j with
    | obj fs =>
      cases hv : jsonLookup fs "concurso" with
      | none => exact ⟨[], by simp [load_existing_data, hv]⟩
      | some v =>
        have hk : (Json.toKey v).isSome = true := h v hv
        cases hkk : Json.toKey v with
        | none => rw [hkk] at hk; simp at hk
        | some k => exact ⟨[(k, .obj fs)], by simp [load_existing_data, hv, hkk]⟩
    | arr xs =>
      rcases buildMapping_safe xs [] h with ⟨m, hm⟩ | hm
      · exact ⟨m, by simp [load_existing_data, hm]⟩
      · exact ⟨[], by simp [load_existing_data, hm]⟩
    | str s =>
      have hs : s = "" := h
      subst hs
      exact ⟨[], rfl⟩
    | num m => exact (h : False).elim
    | bool b => exact (h : False).elim
    | null => exact (h : False).elim

theorem load_total_on_safe_contents_witness :
    ∃ m, load_existing_data (.json (.arr [.obj [("concurso", .num 1)]])) = .ok m :=
  load_total_on_safe_contents (.json (.arr [.obj [("concurso", .num 1)]]))
    (by
      intro x hx
      have hx2 : x = Json.obj [("concurso", Json.num 1)] := List.mem_singleton.mp hx
      subst hx2
      refine ⟨[("concurso", Json.num 1)], rfl, ?_⟩
      intro v hv
      have h2 : some (Json.num 1) = some v := hv
      cases h2
      rfl)

/-- C10: a store file holding a single JSON object (the legacy single-draw
format) loads as the one-entry mapping from the object's `"concurso"` value
to the object; and whatever a successful run persists is written in the
array format (`save_json` serializes the sorted draw array, delimited as a
JSON array), so the legacy file is migrated on the next save. -/
theorem legacy_object_load_migrates (fs : List (String × Json)) (v : Json) (k : JKey)
    (hv : jsonLookup fs "concurso" = some v) (hk : Json.toKey v = some k) :
    load_existing_data (.json (.obj fs)) = .ok [(k, .obj fs)] ∧
      ∀ r L ds rep file, runBase r L = .ok (ds, rep) →
        persistedAfter r L file = some (serializeDraws ds) ∧
        ∃ body, serializeDraws ds = "[\n" ++ body ++ "\n]" := by
  constructor
  · simp [load_existing_data, hv, hk]
  · intro r L ds rep file hok
    exact ⟨by simp [persistedAfter, hok], ⟨_, rfl⟩⟩

theorem legacy_object_load_migrates_witness :
    load_existing_data (.json (.obj [("concurso", .num 9)])) =
      .ok [(.num 9, .obj [("concurso", .num 9)])] ∧
      ∀ r L ds rep file, runBase r L = .ok (ds, rep) →
        persistedAfter r L file = some (serializeDraws ds) ∧
        ∃ body, serializeDraws ds = "[\n" ++ body ++ "\n]" :=
  legacy_object_load_migrates [("concurso", .num 9)] (.num 9) (.num 9) rfl rfl

/-- A remote with frontier 2 whose draw 1 is a New-Year (Virada) draw. -/
def viradaRemote : Remote :=
  ⟨some (sampleRaw 2), fun i =>
    if i = 1 then some ⟨some 1, some "31/12/2010", some ["02"], none⟩ else none⟩

theorem viradaRemote_honest : honestRemote viradaRemote.byId := by
  intro i raw h
  by_cases hi : i = 1
  · subst hi
    simp only [viradaRemote, if_true] at h
    rw [← Option.some_injective _ h]
  · simp [viradaRemote, hi] at h

/-- C7 counterexample: the Virada service's run issues remote by-id calls
of its own (here, one call for id 1), contradicting the claim that it
makes no network call and merely filters the upstream series' persisted
file — `MegaSenaDaViradaService.run` refetches every id below the
frontier. -/
theorem virada_makes_remote_calls :
    runVirada viradaRemote = .ok ([⟨1, "31/12/2010", ["02"]⟩], [1]) ∧
      ([1] : List Nat) ≠ [] :=
  ⟨rfl, by decide⟩

/-- C7 amended: the derived series' output contains exactly the
transformed upstream records satisfying the special-draw predicate
(explicit indicator = 2, or occurrence date starting `31/12` with
year ≥ 2008), sorted strictly ascending by id — but it is produced by
re-fetching every id in `[1, frontier)` from the remote (one by-id call
per such id, the trace being exactly that range), not by reading the
upstream series' persisted file; per-id fetch or transform failures are
skipped. -/
theorem virada_filters_refetched_upstream (r : Remote) (lraw : Raw) (n : Nat)
    (ld : Draw) (hhon : honestRemote r.byId) (h2 : r.latest = some lraw)
    (h3 : lraw.numero = some n) (h4 : transform_draw lraw = .ok ld) :
    ∃ out, runVirada r = .ok (out, List.range' 1 (n - 1)) ∧
      (∀ d, d ∈ out ↔
        (is_virada lraw = true ∧ d = ld) ∨
        ∃ i, i ∈ List.range' 1 (n - 1) ∧ viradaPick r.byId i = some d) ∧
      out.Pairwise (fun a b => a.concurso < b.concurso) := by
  have hldc : ld.concurso = n := by
    have h5 := transform_concurso h4
    rw [h3] at h5
    exact (Option.some_injective _ h5).symm
  refine ⟨sortDraws ((if is_virada lraw then [ld] else []) ++
    (List.range' 1 (n - 1)).filterMap (viradaPick r.byId)), ?_, ?_, ?_⟩
  · cases hv : is_virada lraw with
    | true =>
      simp [runVirada, h2, h3, hv, h4, viradaLoop_eq r.byId (List.range' 1 (n - 1))]
    | false =>
      simp [runVirada, h2, h3, hv, viradaLoop_eq r.byId (List.range' 1 (n - 1))]
  · intro d
    rw [mem_sortDraws, List.mem_append, List.mem_filterMap]
    cases hv : is_virada lraw with
    | true => simp
    | false => simp
  · apply pairwise_lt_of_le_nodup (sortDraws_pairwise_le _)
    rw [((sortDraws_perm _).map Draw.concurso).nodup_iff]
    rw [List.map_append, viradaPick_concursos hhon]
    have hnodupf : (List.filter (fun i => (viradaPick r.byId i).isSome)
        (List.range' 1 (n - 1))).Nodup :=
      (List.nodup_range' 1 (n - 1)).filter _
    cases hv : is_virada lraw with
    | false => simpa using hnodupf
    | true =>
      have hmap : (List.map Draw.concurso (if true = true then [ld] else [])) = [n] := by
        simp [hldc]
      rw [hmap, List.singleton_append, List.nodup_cons]
      refine ⟨?_, hnodupf⟩
      intro hmem
      have hrange := List.mem_filter.mp hmem
      have hb := List.mem_range'_1.mp hrange.1
      omega

theorem virada_filters_refetched_upstream_witness :
    ∃ out, runVirada viradaRemote = .ok (out, List.range' 1 (2 - 1)) ∧
      (∀ d, d ∈ out ↔
        (is_virada (sampleRaw 2) = true ∧ d = sampleDraw 2) ∨
        ∃ i, i ∈ List.range' 1 (2 - 1) ∧ viradaPick viradaRemote.byId i = some d) ∧
      out.Pairwise (fun a b => a.concurso < b.concurso) :=
  virada_filters_refetched_upstream viradaRemote (sampleRaw 2) 2 (sampleDraw 2)
    viradaRemote_honest rfl rfl rfl

theorem baseInit_of_hasKey {L : List (Nat × Draw)} {n : Nat} {ld : Draw}
    (h : hasKey L n = true) : baseInit L n ld = L := by
  simp [baseInit, h]

theorem hld_of_hcase {L : List (Nat × Draw)} {lraw : Raw} {n : Nat} {ld : Draw}
    (h3 : lraw.numero = some n)
    (hcase : hasKey L n = true ∨ transform_draw lraw = .ok ld) :
    hasKey L n = true ∨ ld.concurso = n := by
  rcases hcase with h | h
  · exact Or.inl h
  · refine Or.inr ?_
    have h5 := transform_concurso h
    rw [h3] at h5
    exact (Option.some_injective _ h5).symm

/-- C4: with the remote unchanged between the two runs, the second run
loads the first run's persisted array, adds nothing (every id still
missing is one whose fetch or transform fails again), and saves the same
draw array — hence byte-identical persisted output
(`serializeDraws` is a function of the array alone). -/
theorem rerun_unchanged_remote_byte_identical (r : Remote) (L : List (Nat × Draw))
    (ds1 : List Draw) (rep1 : RunReport) (hhon : honestRemote r.byId)
    (hkeyed : keyed L) (hnd : (L.map Prod.fst).Nodup)
    (hok1 : runBase r L = .ok (ds1, rep1)) :
    ∃ rep2, runBase r (reloadDraws ds1) = .ok (ds1, rep2) ∧ rep2.added = 0 ∧
      persistedAfter r (reloadDraws ds1) (some (serializeDraws ds1)) =
        some (serializeDraws ds1) := by
  obtain ⟨lraw, n, ld, h2, h3, hcase⟩ := runBase_ok_elim hok1
  have heq := runBase_eq r L lraw n ld h2 h3 hcase
  have hpair := Except.ok.inj (hok1.symm.trans heq)
  have hds1 : ds1 = sortDraws ((baseFinal r L n ld).map Prod.snd) :=
    congrArg Prod.fst hpair
  have hlt : ds1.Pairwise (fun a b => a.concurso < b.concurso) :=
    runBase_ok_pairwise hhon hkeyed hnd hok1
  have hndc : (ds1.map Draw.concurso).Nodup := nodup_concursos_of_pairwise_lt hlt
  have hrel : reloadDraws ds1 = ds1.map (fun d => (d.concurso, d)) := reloadDraws_eq hndc
  have hkF : keyed (baseFinal r L n ld) :=
    baseFinal_keyed hhon hkeyed (hld_of_hcase h3 hcase)
  have hchain : ∀ j, hasKey (baseFinal r L n ld) j = true →
      hasKey (ds1.map (fun d => (d.concurso, d))) j = true := by
    intro j hkFj
    apply hasKey_map_self.mpr
    rw [hds1, List.Perm.mem_iff ((sortDraws_perm _).map Draw.concurso),
      map_concurso_values hkF, mem_map_fst]
    exact hasKey_iff.mp hkFj
  have hkRn : hasKey (ds1.map (fun d => (d.concurso, d))) n = true :=
    hchain n (hasKey_baseFinal_of_init (hasKey_baseInit.mpr (Or.inr rfl)))
  have hbi : baseInit (ds1.map (fun d => (d.concurso, d))) n ld =
      ds1.map (fun d => (d.concurso, d)) := baseInit_of_hasKey hkRn
  have hfr0 : freshResults r.byId (ds1.map (fun d => (d.concurso, d)))
      (List.range' 1 n) = [] := by
    rw [freshResults, List.filterMap_eq_nil_iff]
    intro j hj
    cases hkRj : hasKey (ds1.map (fun d => (d.concurso, d))) j with
    | true => simp [hkRj]
    | false =>
      cases hft : fetchTransform r.byId j with
      | error e => simp [hkRj, hft]
      | ok d =>
        exfalso
        have hkFj : hasKey (baseFinal r L n ld) j = true := by
          cases hkBj : hasKey (baseInit L n ld) j with
          | true => exact hasKey_baseFinal_of_init hkBj
          | false => exact hasKey_baseFinal_of_fetch hj hft
        have hcontra := hchain j hkFj
        rw [hkRj] at hcontra
        cases hcontra
  have hbf : baseFinal r (ds1.map (fun d => (d.concurso, d))) n ld =
      ds1.map (fun d => (d.concurso, d)) := by
    unfold baseFinal
    rw [hbi, hfr0, List.append_nil]
  have hRsnd : (ds1.map (fun d => (d.concurso, d))).map Prod.snd = ds1 := by
    rw [List.map_map]
    exact List.map_id ds1
  have hsort : sortDraws ds1 = ds1 :=
    sortDraws_of_sorted (hlt.imp (fun h => Nat.le_of_lt h))
  have heq2 := runBase_eq r (ds1.map (fun d => (d.concurso, d))) lraw n ld h2 h3
    (Or.inl hkRn)
  rw [hbf, hbi, hfr0, hRsnd, hsort, List.length_nil] at heq2
  refine ⟨⟨(ds1.map (fun d => (d.concurso, d))).length, 0, ds1.length,
    freshFailures r.byId (ds1.map (fun d => (d.concurso, d))) (List.range' 1 n)⟩,
    ?_, rfl, ?_⟩
  · rw [hrel]
    rw [heq2]
  · rw [persistedAfter, hrel, heq2]

theorem rerun_unchanged_remote_byte_identical_witness :
    ∃ rep2, runBase denseRemote
        (reloadDraws [sampleDraw 1, sampleDraw 2, sampleDraw 3]) =
      .ok ([sampleDraw 1, sampleDraw 2, sampleDraw 3], rep2) ∧ rep2.added = 0 ∧
      persistedAfter denseRemote
          (reloadDraws [sampleDraw 1, sampleDraw 2, sampleDraw 3])
          (some (serializeDraws [sampleDraw 1, sampleDraw 2, sampleDraw 3])) =
        some (serializeDraws [sampleDraw 1, sampleDraw 2, sampleDraw 3]) :=
  rerun_unchanged_remote_byte_identical denseRemote []
    [sampleDraw 1, sampleDraw 2, sampleDraw 3] ⟨0, 2, 3, []⟩ denseRemote_honest
    (fun p hp => absurd hp (List.not_mem_nil p)) (by simp) rfl

/-- C8: for the same remote state, the resumable policy
(`BaseService.run`: reuse the loaded store, fetch only missing ids) and
the full-rebuild policy (refetch every id up to the frontier, as the spec
words policy (b) and as `MegaSenaDaViradaService.run` structures its
fetching) persist the same final content — provided the loaded store is
consistent with that remote state (each stored draw is what fetching its
id yields now); they differ only in remote-call volume. -/
theorem resumable_and_full_rebuild_agree (r : Remote) (L : List (Nat × Draw))
    (lraw : Raw) (n : Nat) (ld : Draw) (hhon : honestRemote r.byId)
    (h2 : r.latest = some lraw) (h3 : lraw.numero = some n)
    (h4 : transform_draw lraw = .ok ld) (h5 : r.byId n = some lraw)
    (hn1 : 1 ≤ n)
    (hcons : ∀ p ∈ L, 1 ≤ (Prod.fst p) ∧ Prod.fst p ≤ n ∧
      fetchTransform r.byId (Prod.fst p) = .ok (Prod.snd p))
    (hnd : (L.map Prod.fst).Nodup) :
    ∃ ds rep, runBase r L = .ok (ds, rep) ∧ fullRebuildPolicy r = .ok ds := by
  have hkeyed : keyed L := fun p hp => fetchTransform_concurso hhon (hcons p hp).2.2
  have heq := runBase_eq r L lraw n ld h2 h3 (Or.inr h4)
  have hlt1 : (sortDraws ((baseFinal r L n ld).map Prod.snd)).Pairwise
      (fun a b => a.concurso < b.concurso) :=
    runBase_ok_pairwise hhon hkeyed hnd heq
  have hreb : fullRebuildPolicy r = .ok (sortDraws ((List.range' 1 n).filterMap
      (fun i => (fetchTransform r.byId i).toOption))) := by
    simp [fullRebuildPolicy, h2, h3]
  have hfetchN : fetchTransform r.byId n = .ok ld := by
    rw [fetchTransform, h5]
    exact h4
  have hnrange : n ∈ List.range' 1 n := List.mem_range'_1.mpr ⟨hn1, by omega⟩
  have hmemRb : ∀ d : Draw, d ∈ (List.range' 1 n).filterMap
      (fun i => (fetchTransform r.byId i).toOption) ↔
      ∃ i, i ∈ List.range' 1 n ∧ fetchTransform r.byId i = .ok d := by
    intro d
    rw [List.mem_filterMap]
    constructor
    · rintro ⟨i, hi, hopt⟩
      cases hft : fetchTransform r.byId i with
      | ok d2 =>
        rw [hft, toOption_ok] at hopt
        cases hopt
        exact ⟨i, hi, hft⟩
      | error e =>
        rw [hft, toOption_error] at hopt
        cases hopt
    · rintro ⟨i, hi, hft⟩
      exact ⟨i, hi, by rw [hft, toOption_ok]⟩
  have hmem : ∀ d : Draw, d ∈ (baseFinal r L n ld).map Prod.snd ↔
      ∃ i, i ∈ List.range' 1 n ∧ fetchTransform r.byId i = .ok d := by
    intro d
    rw [mem_map_snd]
    constructor
    · rintro ⟨k, hk⟩
      rcases List.mem_append.mp hk with hkb | hkf
      · rcases mem_baseInit hkb with hmemL | hpeq
        · obtain ⟨hk1, hkn, hft⟩ := hcons (k, d) hmemL
          exact ⟨k, List.mem_range'_1.mpr ⟨hk1, by omega⟩, hft⟩
        · cases hpeq
          exact ⟨n, hnrange, hfetchN⟩
      · obtain ⟨hi, _, hft⟩ := mem_freshResults.mp hkf
        exact ⟨k, hi, hft⟩
    · rintro ⟨i, hi, hft⟩
      cases hkB : hasKey (baseInit L n ld) i with
      | true =>
        obtain ⟨v, hv⟩ := hasKey_iff.mp hkB
        have hvd : v = d := by
          rcases mem_baseInit hv with hmemL | hpeq
          · have hftv := (hcons (i, v) hmemL).2.2
            exact Except.ok.inj (hftv.symm.trans hft)
          · cases hpeq
            exact Except.ok.inj (hfetchN.symm.trans hft)
        subst hvd
        exact ⟨i, List.mem_append.mpr (Or.inl hv)⟩
      | false =>
        exact ⟨i, List.mem_append.mpr
          (Or.inr (mem_freshResults.mpr ⟨hi, hkB, hft⟩))⟩
  have hlt2 : (sortDraws ((List.range' 1 n).filterMap
      (fun i => (fetchTransform r.byId i).toOption))).Pairwise
      (fun a b => a.concurso < b.concurso) := by
    apply pairwise_lt_of_le_nodup (sortDraws_pairwise_le _)
    rw [((sortDraws_perm _).map Draw.concurso).nodup_iff]
    rw [fetchList_concursos hhon]
    exact (List.nodup_range' 1 n).filter _
  have hperm : (sortDraws ((baseFinal r L n ld).map Prod.snd)).Perm
      (sortDraws ((List.range' 1 n).filterMap
        (fun i => (fetchTransform r.byId i).toOption))) := by
    rw [List.perm_ext_iff_of_nodup (nodup_of_pairwise_lt hlt1)
      (nodup_of_pairwise_lt hlt2)]
    intro d
    rw [mem_sortDraws, mem_sortDraws, hmem, hmemRb]
  have hfinal := eq_of_perm_of_pairwise_lt hperm hlt1 hlt2
  refine ⟨_, _, heq, ?_⟩
  rw [hreb, ← hfinal]

theorem resumable_and_full_rebuild_agree_witness :
    ∃ ds rep, runBase denseRemote [(1, sampleDraw 1)] = .ok (ds, rep) ∧
      fullRebuildPolicy denseRemote = .ok ds :=
  resumable_and_full_rebuild_agree denseRemote [(1, sampleDraw 1)] (sampleRaw 3) 3
    (sampleDraw 3) denseRemote_honest rfl rfl rfl rfl (by decide)
    (by
      intro p hp
      have hp2 := List.mem_singleton.mp hp
      subst hp2
      exact ⟨by decide, by decide, rfl⟩)
    (by simp)

end Loterias
